import Mathlib

/-!
Verification of the Canton DAR upload/vetting tooling.

This development shallowly embeds the two command-line tools of the
repository:

* `scripts/upload_dar.py` — uploads a DAR artifact to the authoritative
  participant (app-provider, port 3902), extracts the canonical package id
  from the response (`darIds[0]`), uploads to the secondary participant
  (app-user, port 2902), vets the package on both participants (per-node
  failures are warnings), and rewrites `src/config/packageConfig.js`.
* `vet_dar.py` — vets an already-known package id on both participants and
  exits non-zero when either vetting call fails.

External effects (grpcurl calls, the file system) are modelled by an
environment record describing the outcome of each call, and each run
returns its exit behaviour together with the trace of calls it performed.
The regex-based registry parsing (`re.search(r"versions:\s*{([^}]*)}")`
and `re.finditer(r"'([^']+)':\s*'([^']+)'")`) and the f-string rendering
of `packageConfig.js` are embedded at the character level.
-/

/-- The single-quote character `'` used by the registry entry regex and
the rendered config. -/
def squote : Char := Char.ofNat 39

/-- The opening brace character. -/
def lbrace : Char := Char.ofNat 123

/-- The closing brace character. -/
def rbrace : Char := Char.ofNat 125

/-- ASCII whitespace, as matched by the regex class `\s`. -/
def isWs (c : Char) : Bool :=
  c = ' ' || c = '\t' || c = '\n' || c = '\r' || c = Char.ofNat 11 || c = Char.ofNat 12

/-- The literal `versions:` that anchors the registry block regex
`versions:\s*{([^}]*)}`. -/
def vKey : List Char := "versions:".data

/-- One attempt of the regex `versions:\s*{([^}]*)}` at the head of the
input: the literal `versions:`, greedy `\s*`, a `{`, then the capture
`[^}]*` which must be followed by a `}`. -/
def matchVersionsAt (cs : List Char) : Option (List Char) :=
  if cs.take 9 = vKey then
    match (cs.drop 9).dropWhile isWs with
    | [] => none
    | c :: rest2 =>
      if c = lbrace then
        if rbrace ∈ rest2 then some (rest2.takeWhile (fun x => x ≠ rbrace)) else none
      else none
  else none

/-- Embedding of `re.search(r"versions:\s*{([^}]*)}", content)`: scan left to right for
the first position where the pattern matches and return the capture. -/
def findVersionsBlock : List Char → Option (List Char)
  | [] => none
  | c :: cs =>
    match matchVersionsAt (c :: cs) with
    | some g => some g
    | none => findVersionsBlock cs

/-- Consume one expected literal character, as a regex literal does. -/
def expectChar (c : Char) : List Char → Option (List Char)
  | [] => none
  | x :: xs => if x = c then some xs else none

/-- The capture `[^']+` followed by the closing context: the maximal
nonempty run of non-quote characters, together with the rest (which
starts at the next quote when one exists). -/
def takeCapture (cs : List Char) : Option (List Char × List Char) :=
  let v := cs.takeWhile (fun x => x ≠ squote)
  if v = [] then none else some (v, cs.dropWhile (fun x => x ≠ squote))

/-- One attempt of the regex `'([^']+)':\s*'([^']+)'` at the head of the
input, returning both captures and the remaining input after the match. -/
def matchEntryAt (cs : List Char) : Option (List Char × List Char × List Char) :=
  match expectChar squote cs with
  | none => none
  | some r0 =>
    match takeCapture r0 with
    | none => none
    | some (v, r1) =>
      match expectChar squote r1 with
      | none => none
      | some r2 =>
        match expectChar ':' r2 with
        | none => none
        | some r3 =>
          match expectChar squote (r3.dropWhile isWs) with
          | none => none
          | some r4 =>
            match takeCapture r4 with
            | none => none
            | some (p, r5) =>
              match expectChar squote r5 with
              | none => none
              | some r6 => some (v, p, r6)

def length_dropWhile_le (p : Char → Bool) (l : List Char) :
    (l.dropWhile p).length ≤ l.length :=
  (List.dropWhile_sublist p).length_le

def expectChar_length {c : Char} {cs rest : List Char}
    (h : expectChar c cs = some rest) : rest.length < cs.length := by
  match cs with
  | [] => simp [expectChar] at h
  | x :: xs =>
    simp only [expectChar] at h
    split at h
    · cases h; simp
    · cases h

def takeCapture_length {cs : List Char} {v r : List Char}
    (h : takeCapture cs = some (v, r)) : r.length ≤ cs.length := by
  simp only [takeCapture] at h
  split at h
  · cases h
  · cases h
    exact length_dropWhile_le _ cs

def matchEntryAt_rest_length {cs : List Char}
    {v p rest : List Char} (h : matchEntryAt cs = some (v, p, rest)) :
    rest.length < cs.length := by
  unfold matchEntryAt at h
  cases h0 : expectChar squote cs with
  | none => rw [h0] at h; cases h
  | some r0 =>
  rw [h0] at h; dsimp only at h
  cases h1 : takeCapture r0 with
  | none => rw [h1] at h; cases h
  | some vr1 =>
  obtain ⟨v1, r1⟩ := vr1
  rw [h1] at h; dsimp only at h
  cases h2 : expectChar squote r1 with
  | none => rw [h2] at h; cases h
  | some r2 =>
  rw [h2] at h; dsimp only at h
  cases h3 : expectChar ':' r2 with
  | none => rw [h3] at h; cases h
  | some r3 =>
  rw [h3] at h; dsimp only at h
  cases h4 : expectChar squote (r3.dropWhile isWs) with
  | none => rw [h4] at h; cases h
  | some r4 =>
  rw [h4] at h; dsimp only at h
  cases h5 : takeCapture r4 with
  | none => rw [h5] at h; cases h
  | some pr5 =>
  obtain ⟨p1, r5⟩ := pr5
  rw [h5] at h; dsimp only at h
  cases h6 : expectChar squote r5 with
  | none => rw [h6] at h; cases h
  | some r6 =>
  rw [h6] at h; dsimp only at h
  cases h
  have e0 := expectChar_length h0
  have e1 := takeCapture_length h1
  have e2 := expectChar_length h2
  have e3 := expectChar_length h3
  have e4 := expectChar_length h4
  have e4' := length_dropWhile_le isWs r3
  have e5 := takeCapture_length h5
  have e6 := expectChar_length h6
  omega

/-- Embedding of `re.finditer(r"'([^']+)':\s*'([^']+)'", versions_str)`: collect all
non-overlapping matches, scanning left to right, advancing past each
match (or by one character when no match starts here). -/
def findEntries (cs : List Char) : List (String × String) :=
  match h : matchEntryAt cs with
  | some (v, p, rest) => (String.mk v, String.mk p) :: findEntries rest
  | none =>
    match cs with
    | [] => []
    | _ :: cs2 => findEntries cs2
termination_by cs.length
decreasing_by
  · exact matchEntryAt_rest_length h
  · simp

/-- Python `dict` assignment `d[k] = v` on an insertion-ordered
association list: overwrite in place when the key exists, else append. -/
def dictInsert : List (String × String) → String → String → List (String × String)
  | [], k, v => [(k, v)]
  | (k0, v0) :: rest, k, v =>
    if k0 = k then (k0, v) :: rest else (k0, v0) :: dictInsert rest k v

/-- The parsing step of `update_package_config`: find the `versions` block
and build the `versions` dict from the quoted entry matches. A content
that does not match simply yields the empty dict — no error path exists. -/
def parseChars (cs : List Char) : List (String × String) :=
  match findVersionsBlock cs with
  | none => []
  | some block => (findEntries block).foldl (fun d e => dictInsert d e.1 e.2) []

/-- Registry parsing on a whole file content. -/
def parseVersions (s : String) : List (String × String) := parseChars s.data

/-- Python tuple comparison `(v1, p1) >= (v2, p2)` used (descending) by
`sorted(versions.items(), reverse=True)`. -/
def pairDescB (a b : String × String) : Bool :=
  decide (b.1 < a.1) || (decide (b.1 = a.1) && decide (b.2 ≤ a.2))

/-- Insertion step of the descending sort. -/
def insertDesc (x : String × String) : List (String × String) → List (String × String)
  | [] => [x]
  | y :: ys => if pairDescB x y then x :: y :: ys else y :: insertDesc x ys

/-- Embedding of `sorted(versions.items(), reverse=True)`: all entries sorted by the
pair, descending. -/
def sortDesc : List (String × String) → List (String × String)
  | [] => []
  | x :: xs => insertDesc x (sortDesc xs)

/-- The persisted registry `src/config/packageConfig.js`:
`currentVersion`, `currentPackageId` and the version→package-id map. -/
structure Registry where
  currentVersion : String
  currentPackageId : String
  versions : List (String × String)
deriving DecidableEq

/-- The template used by `update_package_config` when no config file
exists yet. -/
def defaultTemplate : String :=
  "// MinimalToken Package Configuration\n// This file is auto-generated by upload_dar.py\n\nexport const MINIMAL_TOKEN_PACKAGE_CONFIG = \x7b\n  // Current active version\n  currentVersion: null,\n  currentPackageId: null,\n\n  // All deployed versions\n  versions: \x7b\x7d\n\x7d;\n\nexport default MINIMAL_TOKEN_PACKAGE_CONFIG;\n"

/-- Fixed leading text of the rendered config, up to and including the
opening quote of the `currentVersion` value. -/
def cfgP1 : String :=
  "// MinimalToken Package Configuration\n// This file is auto-generated by upload_dar.py\n\nexport const MINIMAL_TOKEN_PACKAGE_CONFIG = \x7b\n  // Current active version\n  currentVersion: \x27"

/-- Fixed text between the `currentVersion` value's closing quote and the
`currentPackageId` value's opening quote. -/
def cfgP2tail : String := ",\n  currentPackageId: "

/-- Fixed text between the `currentPackageId` value's closing quote and
the `versions:` key. -/
def cfgP3tail : String := ",\n\n  // All deployed versions (newest first)\n  "

/-- The newline-and-indent that precedes the first entry and is part of
the `",\n    "` join separator. -/
def sepIndent : String := "\n    "

/-- The `",\n    "` separator of `versions_str`. -/
def entrySep : List Char := ',' :: sepIndent.data

/-- Fixed text after the last entry, before the block's closing brace. -/
def cfgClose : String := "\n  "

/-- Fixed trailing text of the rendered config, after the block's closing
brace. -/
def cfgP6 : String := "\n\x7d;\n\nexport default MINIMAL_TOKEN_PACKAGE_CONFIG;\n"

/-- One rendered entry `f"'{v}': '{pid}'"` of `versions_str`. -/
def renderEntry (e : String × String) : List Char :=
  squote :: e.1.data ++ squote :: ':' :: ' ' :: squote :: e.2.data ++ [squote]

/-- The join `",\n    ".join(...)` over the rendered entries. -/
def renderEntries : List (String × String) → List Char
  | [] => []
  | [e] => renderEntry e
  | e :: e2 :: es => renderEntry e ++ entrySep ++ renderEntries (e2 :: es)

/-- The full `new_content` f-string of `update_package_config`. -/
def renderChars (ver pid : String) (es : List (String × String)) : List Char :=
  cfgP1.data ++ ver.data ++ squote :: cfgP2tail.data ++ squote :: pid.data
    ++ squote :: cfgP3tail.data ++ vKey ++ ' ' :: lbrace :: sepIndent.data
    ++ renderEntries es ++ cfgClose.data ++ rbrace :: cfgP6.data

/-- Serialization of a registry to the config file content. -/
def renderConfig (r : Registry) : String :=
  String.mk (renderChars r.currentVersion r.currentPackageId r.versions)

/-- The content `update_package_config` operates on: the existing file
when present, else the fresh template. -/
def configContent (configFile : Option String) : String :=
  match configFile with
  | some c => c
  | none => defaultTemplate

/-- Embedding of `update_package_config(package_id, version)`: read the existing
content (or the template), parse the `versions` dict, upsert the new
pair, set the current fields and sort the entries descending. The
returned registry is what gets rendered and written back. -/
def update_package_config (configFile : Option String) (package_id version : String) :
    Registry :=
  let content := configContent configFile
  let versions := parseVersions content
  let versions2 := dictInsert versions version package_id
  { currentVersion := version
    currentPackageId := package_id
    versions := sortDesc versions2 }

/-- Outcomes of the external world for one run of `upload_dar.py`:
process exit codes of each grpcurl invocation, the `darIds` list of the
authoritative response (empty when the key is absent or the list empty),
and the state of the file system. -/
structure Env where
  darExists : Bool
  provUploadRc : Int
  provDarIds : List String
  userUploadRc : Int
  provVetRc : Int
  userVetRc : Int
  configFile : Option String
  yamlVersion : Option String
  writeOk : Bool
deriving DecidableEq

/-- Observable external calls performed by a run. -/
inductive Event
  | uploadCall : Nat → Event
  | vetCall : Nat → String → Event
  | registryWrite : Registry → Event
deriving DecidableEq

/-- Embedding of `vet_dar(package_id)` in `scripts/upload_dar.py`: vet on app-provider
(3902) then app-user (2902); a non-zero return code only produces a
warning outcome, never an abort. Returns the calls made and the per-node
(port, success) outcomes. -/
def vet_dar (env : Env) (package_id : String) : List Event × List (Nat × Bool) :=
  ([Event.vetCall 3902 package_id, Event.vetCall 2902 package_id],
   [(3902, decide (env.provVetRc = 0)), (2902, decide (env.userVetRc = 0))])

/-- Embedding of `upload_dar(dar_path, version)` in `scripts/upload_dar.py`: check the
DAR exists, upload to app-provider (3902) and abort on failure, extract
`darIds[0]` from the response and abort when falsy, upload to app-user
(2902) and abort on failure, then vet on both participants. `sys.exit(1)`
is modelled as `Except.error 1`. -/
def upload_dar (env : Env) : Except Nat String × List Event :=
  if env.darExists = false then (Except.error 1, [])
  else
    let ev1 : List Event := [Event.uploadCall 3902]
    if env.provUploadRc ≠ 0 then (Except.error 1, ev1)
    else
      let packageId : Option String :=
        match env.provDarIds with
        | [] => none
        | d :: _ => some d
      match packageId with
      | none => (Except.error 1, ev1)
      | some pid =>
        if pid = "" then (Except.error 1, ev1)
        else
          let ev2 := ev1 ++ [Event.uploadCall 2902]
          if env.userUploadRc ≠ 0 then (Except.error 1, ev2)
          else
            let v := vet_dar env pid
            (Except.ok pid, ev2 ++ v.1)

/-- Version resolution in `main`: the single positional argument when
given, else the `version` field of `daml.yaml` (`none` models a missing
file, a missing field or an empty value, all of which exit). -/
def resolveVersion (args : List String) (env : Env) : Option String :=
  match args with
  | v :: _ => some v
  | [] => env.yamlVersion

/-- Embedding of `main()` of `scripts/upload_dar.py` over the argument list (without
the program name): usage check, version resolution, `upload_dar`, then
`update_package_config` which writes the registry. A failing registry
write raises and exits non-zero without recording a write. Returns the
process exit code and the trace of external calls. -/
def main_run (args : List String) (env : Env) : Nat × List Event :=
  if args.length > 1 then (1, [])
  else
    match resolveVersion args env with
    | none => (1, [])
    | some version =>
      match upload_dar env with
      | (Except.error c, ev) => (c, ev)
      | (Except.ok pid, ev) =>
        let reg := update_package_config env.configFile pid version
        if env.writeOk then (0, ev ++ [Event.registryWrite reg])
        else (1, ev)

/-- Outcomes of the two vetting calls for one run of `vet_dar.py`. -/
structure VetEnv where
  provVetRc : Int
  userVetRc : Int
deriving DecidableEq

/-- Embedding of `vet_dar_on_participant(package_id, port, name)` of `vet_dar.py`:
returns `True` exactly when the grpcurl call exited zero, printing only a
warning otherwise. -/
def vet_dar_on_participant (package_id : String) (port : Nat) (rc : Int) :
    Bool × Event :=
  (decide (rc = 0), Event.vetCall port package_id)

/-- Embedding of `main()` of `vet_dar.py` over the argument list (without the program
name): requires exactly one argument, vets on both participants, and
exits 1 unless both vetting calls succeeded. -/
def vetDarMain (args : List String) (env : VetEnv) : Nat × List Event :=
  if args.length ≠ 1 then (1, [])
  else
    match args with
    | pkg :: _ =>
      let r1 := vet_dar_on_participant pkg 3902 env.provVetRc
      let r2 := vet_dar_on_participant pkg 2902 env.userVetRc
      if r1.1 && r2.1 then (0, [r1.2, r2.2]) else (1, [r1.2, r2.2])
    | [] => (1, [])

/-- Characters that may appear in a registry entry field so that the
rendered entry is recovered verbatim by the entry regex. -/
def entryGood (s : String) : Prop :=
  s.data ≠ [] ∧ ∀ c ∈ s.data, c ≠ squote ∧ c ≠ rbrace

/-- No start position inside `xs` (continued by `ys`) matches the
`versions:` anchor of the block regex. -/
def noStart (xs ys : List Char) : Prop :=
  ∀ as bs, xs = as ++ bs → bs ≠ [] → (bs ++ ys).take 9 ≠ vKey

/-- Decidable check that a concrete text segment contains no start of a
`versions:` match, whatever follows it. -/
def segOk (xs : List Char) : Bool :=
  xs.tails.all fun bs =>
    bs.isEmpty ||
      (if bs.length < 9 then decide (vKey.take bs.length ≠ bs)
       else decide (bs.take 9 ≠ vKey))

/-- Characters allowed in the `version` and `package_id` values so the
rendered config parses back: nonempty, no quote (entry regex), no closing
brace (block capture), no colon (cannot fake the `versions:` anchor). -/
def goodField (s : String) : Prop :=
  s.data ≠ [] ∧ ∀ c ∈ s.data, c ≠ squote ∧ c ≠ rbrace ∧ c ≠ ':'

/-- The captured `versions` block of a rendered config. -/
def blockChars (es : List (String × String)) : List Char :=
  sepIndent.data ++ (renderEntries es ++ cfgClose.data)

theorem takeWhile_append_stop {p : Char → Bool} {xs : List Char} {y : Char}
    {ys : List Char} (hxs : ∀ c ∈ xs, p c = true) (hy : p y = false) :
    (xs ++ y :: ys).takeWhile p = xs := by
  induction xs with
  | nil => simp [List.takeWhile_cons, hy]
  | cons a as ih =>
    have ha := hxs a (by simp)
    simp only [List.cons_append, List.takeWhile_cons, ha, if_true]
    rw [ih (fun c hc => hxs c (by simp [hc]))]

theorem dropWhile_append_stop {p : Char → Bool} {xs : List Char} {y : Char}
    {ys : List Char} (hxs : ∀ c ∈ xs, p c = true) (hy : p y = false) :
    (xs ++ y :: ys).dropWhile p = y :: ys := by
  induction xs with
  | nil => simp [List.dropWhile_cons, hy]
  | cons a as ih =>
    have ha := hxs a (by simp)
    simp only [List.cons_append, List.dropWhile_cons, ha, if_true]
    exact ih (fun c hc => hxs c (by simp [hc]))

theorem findEntries_nil : findEntries [] = [] := by
  rw [findEntries.eq_def]
  rfl

theorem findEntries_cons_of_none {c : Char} {cs : List Char}
    (h : matchEntryAt (c :: cs) = none) :
    findEntries (c :: cs) = findEntries cs := by
  rw [findEntries.eq_def]
  split
  · next heq => rw [h] at heq; cases heq
  · rfl

theorem findEntries_of_some {cs : List Char} {v p rest : List Char}
    (h : matchEntryAt cs = some (v, p, rest)) :
    findEntries cs = (String.mk v, String.mk p) :: findEntries rest := by
  rw [findEntries.eq_def]
  split
  · next v2 p2 rest2 heq =>
    rw [h] at heq
    cases heq
    rfl
  · next heq => rw [h] at heq; cases heq

theorem matchEntryAt_cons_of_ne {c : Char} {cs : List Char} (h : c ≠ squote) :
    matchEntryAt (c :: cs) = none := by
  simp [matchEntryAt, expectChar, h]

theorem findEntries_skip {sep : List Char} (h : ∀ c ∈ sep, c ≠ squote)
    (cs : List Char) : findEntries (sep ++ cs) = findEntries cs := by
  induction sep with
  | nil => rfl
  | cons a as ih =>
    rw [List.cons_append,
      findEntries_cons_of_none (matchEntryAt_cons_of_ne (h a (by simp)))]
    exact ih (fun c hc => h c (by simp [hc]))

theorem findEntries_of_no_quote {cs : List Char} (h : ∀ c ∈ cs, c ≠ squote) :
    findEntries cs = [] := by
  have := findEntries_skip h []
  simpa [findEntries_nil] using this

theorem decide_ne_squote {v : List Char} (hq : ∀ c ∈ v, c ≠ squote) :
    ∀ c ∈ v, (fun x => decide (x ≠ squote)) c = true := by
  intro c hc
  simpa using hq c hc

theorem takeCapture_closed {v : List Char} (rest : List Char)
    (hv : v ≠ []) (hq : ∀ c ∈ v, c ≠ squote) :
    takeCapture (v ++ squote :: rest) = some (v, squote :: rest) := by
  simp only [takeCapture]
  rw [takeWhile_append_stop (decide_ne_squote hq) (by simp),
    dropWhile_append_stop (decide_ne_squote hq) (by simp)]
  simp [hv]

theorem matchEntryAt_render {v p : List Char} (rest : List Char)
    (hv : v ≠ []) (hvq : ∀ c ∈ v, c ≠ squote)
    (hp : p ≠ []) (hpq : ∀ c ∈ p, c ≠ squote) :
    matchEntryAt
      (squote :: (v ++ (squote :: ':' :: ' ' :: (squote :: (p ++ (squote :: rest))))))
      = some (v, p, rest) := by
  unfold matchEntryAt
  rw [show expectChar squote
      (squote :: (v ++ (squote :: ':' :: ' ' :: (squote :: (p ++ (squote :: rest))))))
      = some (v ++ (squote :: ':' :: ' ' :: (squote :: (p ++ (squote :: rest)))))
      from by simp [expectChar]]
  dsimp only
  rw [takeCapture_closed (':' :: ' ' :: (squote :: (p ++ (squote :: rest)))) hv hvq]
  dsimp only
  rw [show expectChar squote
      (squote :: (':' :: ' ' :: (squote :: (p ++ (squote :: rest)))))
      = some (':' :: ' ' :: (squote :: (p ++ (squote :: rest))))
      from by simp [expectChar]]
  dsimp only
  rw [show expectChar ':' (':' :: ' ' :: (squote :: (p ++ (squote :: rest))))
      = some (' ' :: (squote :: (p ++ (squote :: rest)))) from by simp [expectChar]]
  dsimp only
  rw [show List.dropWhile isWs (' ' :: (squote :: (p ++ (squote :: rest))))
      = squote :: (p ++ (squote :: rest)) from by
    rw [List.dropWhile_cons, if_pos (by decide), List.dropWhile_cons,
      if_neg (by decide)]]
  rw [show expectChar squote (squote :: (p ++ (squote :: rest)))
      = some (p ++ (squote :: rest)) from by simp [expectChar]]
  dsimp only
  rw [takeCapture_closed rest hp hpq]
  dsimp only
  rw [show expectChar squote (squote :: rest) = some rest from by simp [expectChar]]

theorem renderEntry_eq (e : String × String) (rest : List Char) :
    renderEntry e ++ rest
      = squote :: (e.1.data
          ++ (squote :: ':' :: ' ' :: (squote :: (e.2.data ++ (squote :: rest))))) := by
  simp [renderEntry]

theorem findEntries_render_list (es : List (String × String))
    (hes : ∀ e ∈ es, entryGood e.1 ∧ entryGood e.2) (tail : List Char)
    (htail : ∀ c ∈ tail, c ≠ squote) :
    findEntries (renderEntries es ++ tail) = es := by
  induction es with
  | nil =>
    simp only [renderEntries, List.nil_append]
    exact findEntries_of_no_quote htail
  | cons e es ih =>
    obtain ⟨⟨hv1, hv2⟩, ⟨hp1, hp2⟩⟩ := hes e (by simp)
    have hes' : ∀ x ∈ es, entryGood x.1 ∧ entryGood x.2 :=
      fun x hx => hes x (by simp [hx])
    match es with
    | [] =>
      simp only [renderEntries]
      rw [renderEntry_eq e tail]
      rw [findEntries_of_some
        (matchEntryAt_render tail hv1 (fun c hc => (hv2 c hc).1) hp1
          (fun c hc => (hp2 c hc).1))]
      rw [findEntries_of_no_quote htail]
    | e2 :: es2 =>
      simp only [renderEntries]
      rw [List.append_assoc, List.append_assoc,
        renderEntry_eq e (entrySep ++ (renderEntries (e2 :: es2) ++ tail))]
      rw [findEntries_of_some
        (matchEntryAt_render _ hv1 (fun c hc => (hv2 c hc).1) hp1
          (fun c hc => (hp2 c hc).1))]
      rw [findEntries_skip (by decide : ∀ c ∈ entrySep, c ≠ squote)]
      rw [ih hes']

theorem matchVersionsAt_none_of_take {cs : List Char} (h : cs.take 9 ≠ vKey) :
    matchVersionsAt cs = none := by
  simp [matchVersionsAt, h]

theorem findVersionsBlock_cons_none {c : Char} {cs : List Char}
    (h : matchVersionsAt (c :: cs) = none) :
    findVersionsBlock (c :: cs) = findVersionsBlock cs := by
  simp [findVersionsBlock, h]

theorem findVersionsBlock_append {xs ys : List Char} (h : noStart xs ys) :
    findVersionsBlock (xs ++ ys) = findVersionsBlock ys := by
  induction xs with
  | nil => rfl
  | cons a as ih =>
    rw [List.cons_append]
    have hhead : ((a :: as) ++ ys).take 9 ≠ vKey := h [] (a :: as) rfl (by simp)
    rw [findVersionsBlock_cons_none (matchVersionsAt_none_of_take (by simpa using hhead))]
    exact ih (fun as2 bs2 heq hne => h (a :: as2) bs2 (by simp [heq]) hne)

theorem noStart_append {x1 x2 ys : List Char}
    (h1 : noStart x1 (x2 ++ ys)) (h2 : noStart x2 ys) : noStart (x1 ++ x2) ys := by
  intro as bs heq hne
  rcases List.append_eq_append_iff.mp heq with ⟨t, ht1, ht2⟩ | ⟨t, ht1, ht2⟩
  · exact h2 t bs ht2 hne
  · match t, ht2 with
    | [], ht2 =>
      have hbx : bs = x2 := by simpa using ht2
      subst hbx
      exact h2 [] bs rfl hne
    | c :: t2, ht2 =>
      have := h1 as (c :: t2) ht1 (by simp)
      subst ht2
      rw [List.append_assoc]
      exact this

theorem take_append_le {l1 l2 : List Char} {n : Nat} (h : l1.length ≤ n) :
    (l1 ++ l2).take n = l1 ++ l2.take (n - l1.length) := by
  induction l1 generalizing n with
  | nil => simp
  | cons a as ih =>
    cases n with
    | zero => simp at h
    | succ m =>
      simp only [List.cons_append, List.take_succ_cons, List.length_cons]
      rw [ih (by simpa using h)]
      simp [Nat.succ_sub_succ]

theorem noStart_of_segOk (xs : List Char) (h : segOk xs = true) (ys : List Char) :
    noStart xs ys := by
  intro as bs heq hne hkey
  have hmem : bs ∈ xs.tails := (List.mem_tails bs xs).mpr ⟨as, heq.symm⟩
  have hb := List.all_eq_true.mp h bs hmem
  rw [Bool.or_eq_true] at hb
  rcases hb with hb | hb
  · exact hne (by simpa using hb)
  · split at hb
    · next hlen =>
      rw [take_append_le (by omega)] at hkey
      have : vKey.take bs.length = bs := by
        rw [← hkey, List.take_left]
      simp [this] at hb
    · next hlen =>
      rw [List.take_append_of_le_length (by omega)] at hkey
      simp [hkey] at hb

theorem noStart_hole (xs : List Char) (c : Char) (ys : List Char)
    (hx : ∀ a ∈ xs, a ≠ ':') (hc : c ∉ vKey) : noStart xs (c :: ys) := by
  intro as bs heq hne hkey
  by_cases hlen : 9 ≤ bs.length
  · rw [List.take_append_of_le_length hlen] at hkey
    have hcol : (':' : Char) ∈ vKey := by decide
    rw [← hkey] at hcol
    have hcbs : (':' : Char) ∈ bs := (List.take_sublist 9 bs).mem hcol
    have hcxs : (':' : Char) ∈ xs := by
      rw [heq]
      exact List.mem_append_right as hcbs
    exact hx ':' hcxs rfl
  · have hlt : bs.length < 9 := by omega
    rw [take_append_le (by omega)] at hkey
    obtain ⟨k, hk⟩ : ∃ k, 9 - bs.length = k + 1 := ⟨8 - bs.length, by omega⟩
    rw [hk, List.take_succ_cons] at hkey
    apply hc
    rw [← hkey]
    exact List.mem_append_right bs (by simp)

theorem renderEntry_mem {e : String × String} {c : Char} (hc : c ∈ renderEntry e) :
    c = squote ∨ c = ':' ∨ c = ' ' ∨ c ∈ e.1.data ∨ c ∈ e.2.data := by
  simp only [renderEntry, List.mem_append, List.mem_cons, List.mem_singleton] at hc
  tauto

theorem renderEntry_no_rbrace {e : String × String}
    (h1 : entryGood e.1) (h2 : entryGood e.2) :
    ∀ c ∈ renderEntry e, c ≠ rbrace := by
  intro c hc
  rcases renderEntry_mem hc with rfl | rfl | rfl | h | h
  · decide
  · decide
  · decide
  · exact (h1.2 c h).2
  · exact (h2.2 c h).2

theorem renderEntries_no_rbrace {es : List (String × String)}
    (hes : ∀ e ∈ es, entryGood e.1 ∧ entryGood e.2) :
    ∀ c ∈ renderEntries es, c ≠ rbrace := by
  induction es with
  | nil => simp [renderEntries]
  | cons e es ih =>
    have he := hes e (by simp)
    have hes' : ∀ x ∈ es, entryGood x.1 ∧ entryGood x.2 :=
      fun x hx => hes x (by simp [hx])
    match es with
    | [] =>
      simpa [renderEntries] using renderEntry_no_rbrace he.1 he.2
    | e2 :: es2 =>
      intro c hc
      simp only [renderEntries, List.mem_append] at hc
      rcases hc with (hc | hc) | hc
      · exact renderEntry_no_rbrace he.1 he.2 c hc
      · revert hc
        have : ∀ c ∈ entrySep, c ≠ rbrace := by decide
        exact fun hc => this c hc
      · exact ih hes' c hc

theorem findVersionsBlock_cons_some {c : Char} {cs g : List Char}
    (h : matchVersionsAt (c :: cs) = some g) :
    findVersionsBlock (c :: cs) = some g := by
  simp [findVersionsBlock, h]

theorem matchVersionsAt_at_key (X : List Char) :
    matchVersionsAt (vKey ++ X) =
      (match X.dropWhile isWs with
       | [] => none
       | c :: rest2 =>
         if c = lbrace then
           if rbrace ∈ rest2 then
             some (rest2.takeWhile (fun x => x ≠ rbrace))
           else none
         else none) := by
  unfold matchVersionsAt
  rw [show (9 : Nat) = vKey.length from by decide, List.take_left, if_pos rfl,
    List.drop_left]

theorem vKey_cons : vKey = 'v' :: "ersions:".data := by decide

theorem findVersionsBlock_cons_skip {c : Char} (hc : c ≠ 'v') (ys : List Char) :
    findVersionsBlock (c :: ys) = findVersionsBlock ys := by
  apply findVersionsBlock_cons_none
  apply matchVersionsAt_none_of_take
  intro hk
  rw [show (9 : Nat) = 8 + 1 from rfl, List.take_succ_cons, vKey_cons] at hk
  exact hc (by injection hk)

set_option maxRecDepth 4096 in
theorem findVersionsBlock_render (ver pid : String) (es : List (String × String))
    (hver : goodField ver) (hpid : goodField pid)
    (hes : ∀ e ∈ es, entryGood e.1 ∧ entryGood e.2) :
    findVersionsBlock (renderChars ver pid es) = some (blockChars es) := by
  unfold renderChars
  simp only [List.append_assoc, List.cons_append]
  rw [findVersionsBlock_append (noStart_of_segOk cfgP1.data (by decide) _)]
  rw [findVersionsBlock_append
    (noStart_hole ver.data squote _ (fun a ha => (hver.2 a ha).2.2) (by decide))]
  rw [findVersionsBlock_cons_skip (by decide) _]
  rw [findVersionsBlock_append (noStart_of_segOk cfgP2tail.data (by decide) _)]
  rw [findVersionsBlock_cons_skip (by decide) _]
  rw [findVersionsBlock_append
    (noStart_hole pid.data squote _ (fun a ha => (hpid.2 a ha).2.2) (by decide))]
  rw [findVersionsBlock_cons_skip (by decide) _]
  rw [findVersionsBlock_append (noStart_of_segOk cfgP3tail.data (by decide) _)]
  have hm : matchVersionsAt
      (vKey ++ (' ' :: (lbrace :: (sepIndent.data
        ++ (renderEntries es ++ (cfgClose.data ++ rbrace :: cfgP6.data))))))
      = some (blockChars es) := by
    rw [matchVersionsAt_at_key]
    rw [show List.dropWhile isWs (' ' :: (lbrace :: (sepIndent.data
        ++ (renderEntries es ++ (cfgClose.data ++ rbrace :: cfgP6.data)))))
        = lbrace :: (sepIndent.data
            ++ (renderEntries es ++ (cfgClose.data ++ rbrace :: cfgP6.data)))
      from by
        rw [List.dropWhile_cons, if_pos (by decide), List.dropWhile_cons,
          if_neg (by decide)]]
    dsimp only
    rw [if_pos rfl]
    rw [if_pos (show rbrace ∈ sepIndent.data
        ++ (renderEntries es ++ (cfgClose.data ++ rbrace :: cfgP6.data)) by
      refine List.mem_append_right _ (List.mem_append_right _ ?_)
      exact List.mem_append_right _ (by simp))]
    congr 1
    rw [show sepIndent.data ++ (renderEntries es ++ (cfgClose.data ++ rbrace :: cfgP6.data))
        = (sepIndent.data ++ (renderEntries es ++ cfgClose.data)) ++ rbrace :: cfgP6.data
      from by simp [List.append_assoc]]
    rw [takeWhile_append_stop ?hall (by simp)]
    · rfl
    case hall =>
      intro c hc
      simp only [List.mem_append] at hc
      rcases hc with hc | hc | hc
      · revert hc
        have hsi : ∀ c ∈ sepIndent.data, c ≠ rbrace := by decide
        intro hc
        simpa using hsi c hc
      · simpa using renderEntries_no_rbrace hes c hc
      · revert hc
        have hcc : ∀ c ∈ cfgClose.data, c ≠ rbrace := by decide
        intro hc
        simpa using hcc c hc
  rw [vKey_cons, List.cons_append] at hm ⊢
  exact findVersionsBlock_cons_some hm

theorem dictInsert_not_mem {l : List (String × String)} {k : String} (v : String)
    (hk : k ∉ l.map Prod.fst) : dictInsert l k v = l ++ [(k, v)] := by
  induction l with
  | nil => rfl
  | cons e rest ih =>
    obtain ⟨k0, v0⟩ := e
    have hne : k0 ≠ k := fun h => hk (by simp [h])
    simp only [dictInsert]
    rw [if_neg hne, ih (fun h => hk (by simp [h]))]
    rfl

theorem dictInsert_self_mem (l : List (String × String)) (k v : String) :
    (k, v) ∈ dictInsert l k v := by
  induction l with
  | nil => simp [dictInsert]
  | cons e rest ih =>
    obtain ⟨k0, v0⟩ := e
    simp only [dictInsert]
    by_cases h : k0 = k
    · rw [if_pos h]
      subst h
      exact List.mem_cons_self _ _
    · rw [if_neg h]
      exact List.mem_cons_of_mem _ ih

theorem dictInsert_mem_value {l : List (String × String)} {k v x : String}
    (hnd : (l.map Prod.fst).Nodup) (h : (k, x) ∈ dictInsert l k v) : x = v := by
  induction l with
  | nil => simpa [dictInsert] using h
  | cons e rest ih =>
    obtain ⟨k0, v0⟩ := e
    simp only [List.map_cons, List.nodup_cons] at hnd
    simp only [dictInsert] at h
    by_cases hk : k0 = k
    · rw [if_pos hk] at h
      rcases List.mem_cons.mp h with heq | hmem
      · exact (Prod.ext_iff.mp heq).2
      · have hknot : k ∉ rest.map Prod.fst := hk ▸ hnd.1
        exact absurd (List.mem_map_of_mem Prod.fst hmem) hknot
    · rw [if_neg hk] at h
      rcases List.mem_cons.mp h with heq | hmem
      · exact absurd (Prod.ext_iff.mp heq).1.symm hk
      · exact ih hnd.2 hmem

theorem dictInsert_mem_frame {l : List (String × String)} {k v k' x : String}
    (hne : k' ≠ k) : (k', x) ∈ dictInsert l k v ↔ (k', x) ∈ l := by
  induction l with
  | nil => simp [dictInsert, hne]
  | cons e rest ih =>
    obtain ⟨k0, v0⟩ := e
    simp only [dictInsert]
    by_cases hk : k0 = k
    · rw [if_pos hk]
      subst hk
      simp only [List.mem_cons, ih]
      constructor
      · rintro (heq | hmem)
        · exact absurd (Prod.ext_iff.mp heq).1 hne
        · exact Or.inr hmem
      · rintro (heq | hmem)
        · exact absurd (Prod.ext_iff.mp heq).1 hne
        · exact Or.inr hmem
    · rw [if_neg hk]
      simp only [List.mem_cons, ih]

theorem dictInsert_mem_sub {l : List (String × String)} {k v : String}
    {e : String × String} (h : e ∈ dictInsert l k v) : e = (k, v) ∨ e ∈ l := by
  induction l with
  | nil => simpa [dictInsert] using h
  | cons e0 rest ih =>
    obtain ⟨k0, v0⟩ := e0
    simp only [dictInsert] at h
    by_cases hk : k0 = k
    · rw [if_pos hk] at h
      subst hk
      rcases List.mem_cons.mp h with heq | hmem
      · exact Or.inl heq
      · exact Or.inr (List.mem_cons_of_mem _ hmem)
    · rw [if_neg hk] at h
      rcases List.mem_cons.mp h with heq | hmem
      · exact Or.inr (heq ▸ List.mem_cons_self _ _)
      · rcases ih hmem with heq | hmem2
        · exact Or.inl heq
        · exact Or.inr (List.mem_cons_of_mem _ hmem2)

theorem dictInsert_keys_sub {l : List (String × String)} {k v : String}
    {a : String} (h : a ∈ (dictInsert l k v).map Prod.fst) :
    a ∈ l.map Prod.fst ∨ a = k := by
  rcases List.mem_map.mp h with ⟨e, he, rfl⟩
  rcases dictInsert_mem_sub he with rfl | he
  · exact Or.inr rfl
  · exact Or.inl (List.mem_map_of_mem Prod.fst he)

theorem dictInsert_keys_nodup {l : List (String × String)} {k v : String}
    (h : (l.map Prod.fst).Nodup) :
    ((dictInsert l k v).map Prod.fst).Nodup := by
  induction l with
  | nil => simp [dictInsert]
  | cons e rest ih =>
    obtain ⟨k0, v0⟩ := e
    simp only [List.map_cons, List.nodup_cons] at h
    simp only [dictInsert]
    by_cases hk : k0 = k
    · rw [if_pos hk]
      simp only [List.map_cons, List.nodup_cons]
      exact ⟨h.1, h.2⟩
    · rw [if_neg hk]
      simp only [List.map_cons, List.nodup_cons]
      refine ⟨?_, ih h.2⟩
      intro hmem
      rcases dictInsert_keys_sub hmem with hmem | hmem
      · exact h.1 hmem
      · exact hk hmem

theorem foldl_dictInsert_acc (es : List (String × String))
    (acc : List (String × String))
    (hnd : ((acc ++ es).map Prod.fst).Nodup) :
    es.foldl (fun d e => dictInsert d e.1 e.2) acc = acc ++ es := by
  induction es generalizing acc with
  | nil => simp
  | cons e es ih =>
    have hk : e.1 ∉ acc.map Prod.fst := by
      intro hmem
      simp only [List.map_append, List.nodup_append, List.map_cons] at hnd
      exact hnd.2.2 hmem (by simp)
    rw [List.foldl_cons, dictInsert_not_mem e.2 hk]
    have := ih (acc ++ [e]) (by simpa using hnd)
    simpa using this

theorem foldl_dictInsert_nodup (es : List (String × String))
    (h : (es.map Prod.fst).Nodup) :
    es.foldl (fun d e => dictInsert d e.1 e.2) [] = es := by
  simpa using foldl_dictInsert_acc es [] (by simpa using h)

theorem expectChar_mem {c : Char} {cs rest : List Char}
    (h : expectChar c cs = some rest) : ∀ a ∈ rest, a ∈ cs := by
  match cs with
  | [] => simp [expectChar] at h
  | x :: xs =>
    simp only [expectChar] at h
    split at h
    · cases h
      intro a ha
      exact List.mem_cons_of_mem _ ha
    · cases h

theorem takeCapture_props {cs v r : List Char}
    (h : takeCapture cs = some (v, r)) :
    v ≠ [] ∧ (∀ c ∈ v, c ≠ squote) ∧ (∀ c ∈ v, c ∈ cs) ∧ ∀ c ∈ r, c ∈ cs := by
  simp only [takeCapture] at h
  split at h
  · cases h
  · next hne =>
    cases h
    refine ⟨hne, ?_, ?_, ?_⟩
    · intro c hc
      simpa using List.mem_takeWhile_imp hc
    · intro c hc
      exact (List.takeWhile_sublist _).mem hc
    · intro c hc
      exact (List.dropWhile_sublist _).mem hc

theorem matchEntryAt_props {cs : List Char} {v p rest : List Char}
    (h : matchEntryAt cs = some (v, p, rest)) :
    v ≠ [] ∧ p ≠ [] ∧ (∀ c ∈ v, c ≠ squote) ∧ (∀ c ∈ p, c ≠ squote) ∧
      (∀ c ∈ v, c ∈ cs) ∧ (∀ c ∈ p, c ∈ cs) ∧ ∀ c ∈ rest, c ∈ cs := by
  unfold matchEntryAt at h
  cases h0 : expectChar squote cs with
  | none => rw [h0] at h; cases h
  | some r0 =>
  rw [h0] at h; dsimp only at h
  cases h1 : takeCapture r0 with
  | none => rw [h1] at h; cases h
  | some vr1 =>
  obtain ⟨v1, r1⟩ := vr1
  rw [h1] at h; dsimp only at h
  cases h2 : expectChar squote r1 with
  | none => rw [h2] at h; cases h
  | some r2 =>
  rw [h2] at h; dsimp only at h
  cases h3 : expectChar ':' r2 with
  | none => rw [h3] at h; cases h
  | some r3 =>
  rw [h3] at h; dsimp only at h
  cases h4 : expectChar squote (r3.dropWhile isWs) with
  | none => rw [h4] at h; cases h
  | some r4 =>
  rw [h4] at h; dsimp only at h
  cases h5 : takeCapture r4 with
  | none => rw [h5] at h; cases h
  | some pr5 =>
  obtain ⟨p1, r5⟩ := pr5
  rw [h5] at h; dsimp only at h
  cases h6 : expectChar squote r5 with
  | none => rw [h6] at h; cases h
  | some r6 =>
  rw [h6] at h; dsimp only at h
  cases h
  obtain ⟨hv1, hvq, hvsub, hr1sub⟩ := takeCapture_props h1
  obtain ⟨hp1, hpq, hpsub, hr5sub⟩ := takeCapture_props h5
  have m0 := expectChar_mem h0
  have m2 := expectChar_mem h2
  have m3 := expectChar_mem h3
  have m4 := expectChar_mem h4
  have m6 := expectChar_mem h6
  have mws : ∀ a ∈ r3.dropWhile isWs, a ∈ r3 :=
    fun a ha => (List.dropWhile_sublist _).mem ha
  refine ⟨hv1, hp1, hvq, hpq, ?_, ?_, ?_⟩
  · intro c hc
    exact m0 c (hvsub c hc)
  · intro c hc
    exact m0 c (hr1sub c (m2 c (m3 c (mws c (m4 c (hpsub c hc))))))
  · intro c hc
    exact m0 c (hr1sub c (m2 c (m3 c (mws c (m4 c (hr5sub c (m6 c hc)))))))

theorem findEntries_good_aux :
    ∀ (n : Nat) (cs : List Char), cs.length ≤ n → (∀ c ∈ cs, c ≠ rbrace) →
      ∀ e ∈ findEntries cs, entryGood e.1 ∧ entryGood e.2 := by
  intro n
  induction n with
  | zero =>
    intro cs hlen hbr e he
    have hnil : cs = [] := List.length_eq_zero.mp (Nat.le_zero.mp hlen)
    subst hnil
    rw [findEntries_nil] at he
    cases he
  | succ n ih =>
    intro cs hlen hbr e he
    cases hma : matchEntryAt cs with
    | some vpr =>
      obtain ⟨v, p, rest⟩ := vpr
      rw [findEntries_of_some hma] at he
      obtain ⟨hv1, hp1, hvq, hpq, hvsub, hpsub, hrsub⟩ := matchEntryAt_props hma
      rcases List.mem_cons.mp he with rfl | he
      · constructor
        · exact ⟨hv1, fun c hc => ⟨hvq c hc, hbr c (hvsub c hc)⟩⟩
        · exact ⟨hp1, fun c hc => ⟨hpq c hc, hbr c (hpsub c hc)⟩⟩
      · have hlt := matchEntryAt_rest_length hma
        exact ih rest (by omega) (fun c hc => hbr c (hrsub c hc)) e he
    | none =>
      cases cs with
      | nil =>
        rw [findEntries_nil] at he
        cases he
      | cons c cs2 =>
        rw [findEntries_cons_of_none hma] at he
        have hlen2 : cs2.length ≤ n := by
          simp only [List.length_cons] at hlen
          omega
        exact ih cs2 hlen2 (fun a ha => hbr a (by simp [ha])) e he

theorem findEntries_good {cs : List Char} (hbr : ∀ c ∈ cs, c ≠ rbrace) :
    ∀ e ∈ findEntries cs, entryGood e.1 ∧ entryGood e.2 :=
  findEntries_good_aux cs.length cs le_rfl hbr

theorem matchVersionsAt_block_no_rbrace {cs g : List Char}
    (h : matchVersionsAt cs = some g) : ∀ c ∈ g, c ≠ rbrace := by
  unfold matchVersionsAt at h
  split at h
  · split at h
    · cases h
    · next c rest2 heq =>
      split at h
      · split at h
        · cases h
          intro c hc
          simpa using List.mem_takeWhile_imp hc
        · cases h
      · cases h
  · cases h

theorem findVersionsBlock_no_rbrace {cs g : List Char}
    (h : findVersionsBlock cs = some g) : ∀ c ∈ g, c ≠ rbrace := by
  induction cs with
  | nil => cases h
  | cons c cs ih =>
    unfold findVersionsBlock at h
    cases hma : matchVersionsAt (c :: cs) with
    | some g2 =>
      rw [hma] at h
      cases h
      exact matchVersionsAt_block_no_rbrace hma
    | none =>
      rw [hma] at h
      exact ih h

theorem foldl_dictInsert_mem_sub {es : List (String × String)}
    {acc : List (String × String)} {e : String × String}
    (h : e ∈ es.foldl (fun d e => dictInsert d e.1 e.2) acc) :
    e ∈ acc ∨ e ∈ es := by
  induction es generalizing acc with
  | nil => exact Or.inl h
  | cons e0 es ih =>
    rw [List.foldl_cons] at h
    rcases ih h with hmem | hmem
    · rcases dictInsert_mem_sub hmem with heq | hmem2
      · exact Or.inr (by simp [heq])
      · exact Or.inl hmem2
    · exact Or.inr (by simp [hmem])

theorem parseChars_keys_nodup (cs : List Char) :
    ((parseChars cs).map Prod.fst).Nodup := by
  unfold parseChars
  cases hfv : findVersionsBlock cs with
  | none => simp
  | some block =>
    dsimp only
    have : ∀ (es : List (String × String)) (acc : List (String × String)),
        (acc.map Prod.fst).Nodup →
        ((es.foldl (fun d e => dictInsert d e.1 e.2) acc).map Prod.fst).Nodup := by
      intro es
      induction es with
      | nil => intro acc h; simpa using h
      | cons e0 es ih =>
        intro acc h
        rw [List.foldl_cons]
        exact ih _ (dictInsert_keys_nodup h)
    exact this _ [] (by simp)

theorem parseChars_good {cs : List Char} :
    ∀ e ∈ parseChars cs, entryGood e.1 ∧ entryGood e.2 := by
  unfold parseChars
  cases hfv : findVersionsBlock cs with
  | none => simp
  | some block =>
    dsimp only
    intro e he
    rcases foldl_dictInsert_mem_sub he with hmem | hmem
    · cases hmem
    · exact findEntries_good (findVersionsBlock_no_rbrace hfv) e hmem

theorem parseVersions_render {ver pid : String} {es : List (String × String)}
    (hver : goodField ver) (hpid : goodField pid)
    (hes : ∀ e ∈ es, entryGood e.1 ∧ entryGood e.2)
    (hnd : (es.map Prod.fst).Nodup) :
    parseVersions (renderConfig
      { currentVersion := ver, currentPackageId := pid, versions := es }) = es := by
  show parseChars (String.mk (renderChars ver pid es)).data = es
  rw [show (String.mk (renderChars ver pid es)).data = renderChars ver pid es from rfl]
  unfold parseChars
  rw [findVersionsBlock_render ver pid es hver hpid hes]
  dsimp only
  unfold blockChars
  rw [findEntries_skip (by decide : ∀ c ∈ sepIndent.data, c ≠ squote)]
  rw [findEntries_render_list es hes cfgClose.data (by decide)]
  exact foldl_dictInsert_nodup es hnd

theorem insertDesc_perm (x : String × String) (l : List (String × String)) :
    List.Perm (insertDesc x l) (x :: l) := by
  induction l with
  | nil => exact List.Perm.refl _
  | cons y ys ih =>
    simp only [insertDesc]
    by_cases h : pairDescB x y = true
    · rw [if_pos h]
    · rw [if_neg h]
      exact (ih.cons y).trans (List.Perm.swap x y ys)

theorem sortDesc_perm (l : List (String × String)) :
    List.Perm (sortDesc l) l := by
  induction l with
  | nil => exact List.Perm.refl _
  | cons x xs ih =>
    exact (insertDesc_perm x (sortDesc xs)).trans (ih.cons x)

theorem sortDesc_mem {l : List (String × String)} {a : String × String} :
    a ∈ sortDesc l ↔ a ∈ l :=
  (sortDesc_perm l).mem_iff

theorem insertDesc_mem {x : String × String} {l : List (String × String)}
    {z : String × String} (h : z ∈ insertDesc x l) : z = x ∨ z ∈ l :=
  List.mem_cons.mp ((insertDesc_perm x l).mem_iff.mp h)

theorem pairDescB_total (a b : String × String) :
    pairDescB a b = true ∨ pairDescB b a = true := by
  simp only [pairDescB, Bool.or_eq_true, decide_eq_true_eq, Bool.and_eq_true]
  rcases lt_trichotomy a.1 b.1 with h | h | h
  · exact Or.inr (Or.inl h)
  · rcases le_total b.2 a.2 with hle | hle
    · exact Or.inl (Or.inr ⟨h.symm, hle⟩)
    · exact Or.inr (Or.inr ⟨h, hle⟩)
  · exact Or.inl (Or.inl h)

theorem pairDescB_trans {a b c : String × String}
    (h1 : pairDescB a b = true) (h2 : pairDescB b c = true) :
    pairDescB a c = true := by
  simp only [pairDescB, Bool.or_eq_true, decide_eq_true_eq, Bool.and_eq_true] at h1 h2 ⊢
  rcases h1 with h1 | ⟨h1e, h1le⟩ <;> rcases h2 with h2 | ⟨h2e, h2le⟩
  · exact Or.inl (h2.trans h1)
  · exact Or.inl (h2e ▸ h1)
  · exact Or.inl (h1e ▸ h2)
  · exact Or.inr ⟨h2e.trans h1e, h2le.trans h1le⟩

theorem insertDesc_sorted {x : String × String} {l : List (String × String)}
    (hl : l.Pairwise (fun a b => pairDescB a b = true)) :
    (insertDesc x l).Pairwise (fun a b => pairDescB a b = true) := by
  induction l with
  | nil => simp [insertDesc]
  | cons y ys ih =>
    simp only [insertDesc]
    by_cases h : pairDescB x y = true
    · rw [if_pos h]
      rw [List.pairwise_cons]
      refine ⟨?_, hl⟩
      intro z hz
      rcases List.mem_cons.mp hz with rfl | hz
      · exact h
      · exact pairDescB_trans h ((List.pairwise_cons.mp hl).1 z hz)
    · rw [if_neg h]
      have hyx : pairDescB y x = true := (pairDescB_total x y).resolve_left h
      rw [List.pairwise_cons] at hl ⊢
      refine ⟨?_, ih hl.2⟩
      intro z hz
      rcases insertDesc_mem hz with rfl | hz
      · exact hyx
      · exact hl.1 z hz

theorem sortDesc_sorted (l : List (String × String)) :
    (sortDesc l).Pairwise (fun a b => pairDescB a b = true) := by
  induction l with
  | nil => simp [sortDesc]
  | cons x xs ih => exact insertDesc_sorted ih

theorem sortDesc_keys_strict {l : List (String × String)}
    (hnd : (l.map Prod.fst).Nodup) :
    (sortDesc l).Pairwise (fun a b => b.1 < a.1) := by
  have h1 := sortDesc_sorted l
  have hnd2 : ((sortDesc l).map Prod.fst).Nodup :=
    (((sortDesc_perm l).map Prod.fst).nodup_iff).mpr hnd
  have h2 : (sortDesc l).Pairwise (fun a b => a.1 ≠ b.1) := by
    rw [List.Nodup, List.pairwise_map] at hnd2
    exact hnd2
  refine (h1.and h2).imp ?_
  rintro a b ⟨hab, hne⟩
  simp only [pairDescB, Bool.or_eq_true, decide_eq_true_eq, Bool.and_eq_true] at hab
  rcases hab with h | ⟨he, hle⟩
  · exact h
  · exact absurd he.symm hne

theorem entryGood_of_goodField {s : String} (h : goodField s) : entryGood s :=
  ⟨h.1, fun c hc => ⟨(h.2 c hc).1, (h.2 c hc).2.1⟩⟩

theorem update_versions_eq (cf : Option String) (pid ver : String) :
    (update_package_config cf pid ver).versions
      = sortDesc (dictInsert (parseVersions (configContent cf)) ver pid) := rfl

theorem update_mem_self (cf : Option String) (pid ver : String) :
    (ver, pid) ∈ (update_package_config cf pid ver).versions :=
  sortDesc_mem.mpr (dictInsert_self_mem _ _ _)

theorem update_mem_value {cf : Option String} {pid ver x : String}
    (h : (ver, x) ∈ (update_package_config cf pid ver).versions) : x = pid :=
  dictInsert_mem_value (parseChars_keys_nodup (configContent cf).data)
    (sortDesc_mem.mp h)

theorem update_mem_frame {cf : Option String} {pid ver v' x : String}
    (hne : v' ≠ ver) :
    (v', x) ∈ (update_package_config cf pid ver).versions ↔
      (v', x) ∈ parseVersions (configContent cf) :=
  sortDesc_mem.trans (dictInsert_mem_frame hne)

theorem update_keys_nodup (cf : Option String) (pid ver : String) :
    ((update_package_config cf pid ver).versions.map Prod.fst).Nodup :=
  ((((sortDesc_perm _).map Prod.fst)).nodup_iff).mpr
    (dictInsert_keys_nodup (parseChars_keys_nodup (configContent cf).data))

theorem update_good {cf : Option String} {pid ver : String}
    (hver : goodField ver) (hpid : goodField pid) :
    ∀ e ∈ (update_package_config cf pid ver).versions,
      entryGood e.1 ∧ entryGood e.2 := by
  intro e he
  rcases dictInsert_mem_sub (sortDesc_mem.mp he) with rfl | hmem
  · exact ⟨entryGood_of_goodField hver, entryGood_of_goodField hpid⟩
  · exact parseChars_good e hmem

theorem upload_dar_cases (env : Env) :
    (env.darExists = false ∧ upload_dar env = (Except.error 1, [])) ∨
    (env.darExists = true ∧ env.provUploadRc ≠ 0 ∧
      upload_dar env = (Except.error 1, [Event.uploadCall 3902])) ∨
    (env.darExists = true ∧ env.provUploadRc = 0 ∧ env.provDarIds = [] ∧
      upload_dar env = (Except.error 1, [Event.uploadCall 3902])) ∨
    (∃ ds, env.darExists = true ∧ env.provUploadRc = 0 ∧
      env.provDarIds = "" :: ds ∧
      upload_dar env = (Except.error 1, [Event.uploadCall 3902])) ∨
    (∃ d ds, env.darExists = true ∧ env.provUploadRc = 0 ∧
      env.provDarIds = d :: ds ∧ d ≠ "" ∧ env.userUploadRc ≠ 0 ∧
      upload_dar env
        = (Except.error 1, [Event.uploadCall 3902, Event.uploadCall 2902])) ∨
    (∃ d ds, env.darExists = true ∧ env.provUploadRc = 0 ∧
      env.provDarIds = d :: ds ∧ d ≠ "" ∧ env.userUploadRc = 0 ∧
      upload_dar env
        = (Except.ok d,
           [Event.uploadCall 3902, Event.uploadCall 2902,
            Event.vetCall 3902 d, Event.vetCall 2902 d])) := by
  by_cases h1 : env.darExists = false
  · exact Or.inl ⟨h1, by simp [upload_dar, h1]⟩
  · have h1' : env.darExists = true := by
      cases hde : env.darExists
      · exact absurd hde h1
      · rfl
    by_cases h2 : env.provUploadRc ≠ 0
    · exact Or.inr (Or.inl ⟨h1', h2, by simp [upload_dar, h1', h2]⟩)
    · push_neg at h2
      cases hids : env.provDarIds with
      | nil =>
        exact Or.inr (Or.inr (Or.inl ⟨h1', h2, rfl,
          by simp [upload_dar, h1', h2, hids]⟩))
      | cons d ds =>
        by_cases h3 : d = ""
        · subst h3
          exact Or.inr (Or.inr (Or.inr (Or.inl ⟨ds, h1', h2, rfl,
            by simp [upload_dar, h1', h2, hids]⟩)))
        · by_cases h4 : env.userUploadRc ≠ 0
          · exact Or.inr (Or.inr (Or.inr (Or.inr (Or.inl ⟨d, ds, h1', h2, rfl,
              h3, h4, by simp [upload_dar, h1', h2, hids, h3, h4]⟩))))
          · push_neg at h4
            exact Or.inr (Or.inr (Or.inr (Or.inr (Or.inr ⟨d, ds, h1', h2, rfl,
              h3, h4,
              by simp [upload_dar, vet_dar, h1', h2, hids, h3, h4]⟩))))

theorem main_run_exit (args : List String) (env : Env) :
    (main_run args env).1 = 0 ↔
      (args.length ≤ 1 ∧ resolveVersion args env ≠ none ∧
        env.darExists = true ∧ env.provUploadRc = 0 ∧
        (∃ d ds, env.provDarIds = d :: ds ∧ d ≠ "") ∧
        env.userUploadRc = 0 ∧ env.writeOk = true) := by
  constructor
  · intro h0
    by_cases hlen : args.length > 1
    · simp [main_run, hlen] at h0
    · cases hrv : resolveVersion args env with
      | none => simp [main_run, hlen, hrv] at h0
      | some v =>
        rcases upload_dar_cases env with
          ⟨hde, hup⟩ | ⟨hde, hprc, hup⟩ | ⟨hde, hprc, hids, hup⟩ |
          ⟨ds, hde, hprc, hids, hup⟩ | ⟨d, ds, hde, hprc, hids, hd, hurc, hup⟩ |
          ⟨d, ds, hde, hprc, hids, hd, hurc, hup⟩
        · simp [main_run, hlen, hrv, hup] at h0
        · simp [main_run, hlen, hrv, hup] at h0
        · simp [main_run, hlen, hrv, hup] at h0
        · simp [main_run, hlen, hrv, hup] at h0
        · simp [main_run, hlen, hrv, hup] at h0
        · by_cases hw : env.writeOk = true
          · exact ⟨by omega, by simp [hrv], hde, hprc, ⟨d, ds, hids, hd⟩, hurc, hw⟩
          · rw [Bool.not_eq_true] at hw
            simp [main_run, hlen, hrv, hup, hw] at h0
  · rintro ⟨ha, hrv, h1, h2, ⟨d, ds, hids, hd⟩, h4, hw⟩
    obtain ⟨v, hv⟩ : ∃ v, resolveVersion args env = some v := by
      cases hx : resolveVersion args env
      · exact absurd hx hrv
      · exact ⟨_, rfl⟩
    have hlen : ¬ args.length > 1 := by omega
    simp [main_run, hlen, hv, upload_dar, vet_dar, h1, h2, hids, hd, h4, hw]

/-- C1: when the authoritative upload (app-provider, 3902) succeeds and
yields a package id but the secondary upload (app-user, 2902) fails, the
run aborts with exit code 1 (the `DistributionError` of the spec), the
trace ends at the two upload calls — no vetting (activation) call is
made to any node and no registry write happens. -/
theorem c1_secondary_upload_failure_aborts (v : String) (env : Env)
    (d : String) (ds : List String)
    (hdar : env.darExists = true) (hprov : env.provUploadRc = 0)
    (hids : env.provDarIds = d :: ds) (hd : d ≠ "")
    (huser : env.userUploadRc ≠ 0) :
    main_run [v] env = (1, [Event.uploadCall 3902, Event.uploadCall 2902]) := by
  simp [main_run, resolveVersion, upload_dar, hdar, hprov, hids, hd, huser]

theorem c1_witness :
    main_run ["1.0.0"]
      { darExists := true, provUploadRc := 0, provDarIds := ["abc123"],
        userUploadRc := 7, provVetRc := 0, userVetRc := 0,
        configFile := none, yamlVersion := none, writeOk := true }
      = (1, [Event.uploadCall 3902, Event.uploadCall 2902]) :=
  c1_secondary_upload_failure_aborts "1.0.0" _ "abc123" [] rfl rfl rfl
    (by decide) (by decide)

/-- C2: when the authoritative upload fails (non-zero status), the run
aborts with exit code 1 (`DistributionError`): the trace is exactly the
single authoritative upload call, so no activation call is made to any
node and the registry file is never written. -/
theorem c2_authoritative_upload_failure_aborts (v : String) (env : Env)
    (hdar : env.darExists = true) (hprov : env.provUploadRc ≠ 0) :
    main_run [v] env = (1, [Event.uploadCall 3902]) := by
  simp [main_run, resolveVersion, upload_dar, hdar, hprov]

theorem c2_witness :
    main_run ["1.0.0"]
      { darExists := true, provUploadRc := 3, provDarIds := [],
        userUploadRc := 0, provVetRc := 0, userVetRc := 0,
        configFile := none, yamlVersion := none, writeOk := true }
      = (1, [Event.uploadCall 3902]) :=
  c2_authoritative_upload_failure_aborts "1.0.0" _ rfl (by decide)

theorem main_run_success_trace (v : String) (env : Env)
    (d : String) (ds : List String)
    (hdar : env.darExists = true) (hprov : env.provUploadRc = 0)
    (hids : env.provDarIds = d :: ds) (hd : d ≠ "")
    (huser : env.userUploadRc = 0) (hw : env.writeOk = true) :
    main_run [v] env
      = (0, [Event.uploadCall 3902, Event.uploadCall 2902,
             Event.vetCall 3902 d, Event.vetCall 2902 d,
             Event.registryWrite (update_package_config env.configFile d v)]) := by
  simp [main_run, resolveVersion, upload_dar, vet_dar, hdar, hprov, hids, hd,
    huser, hw]

/-- C3: when all uploads succeed, per-node activation failures are
non-fatal: whatever the two vetting return codes are, the run completes
with exit code 0, both vetting calls are attempted, the registry is
written with the new (version, canonicalId) pair, and `vet_dar` records
each node's failure as a (port, success) warning outcome instead of
raising. -/
theorem c3_activation_failure_nonfatal (v : String) (env : Env)
    (d : String) (ds : List String)
    (hdar : env.darExists = true) (hprov : env.provUploadRc = 0)
    (hids : env.provDarIds = d :: ds) (hd : d ≠ "")
    (huser : env.userUploadRc = 0) (hw : env.writeOk = true) :
    main_run [v] env
      = (0, [Event.uploadCall 3902, Event.uploadCall 2902,
             Event.vetCall 3902 d, Event.vetCall 2902 d,
             Event.registryWrite (update_package_config env.configFile d v)])
    ∧ (vet_dar env d).2
        = [(3902, decide (env.provVetRc = 0)), (2902, decide (env.userVetRc = 0))] := by
  exact ⟨main_run_success_trace v env d ds hdar hprov hids hd huser hw, rfl⟩

theorem c3_witness :
    (main_run ["1.0.0"]
      { darExists := true, provUploadRc := 0, provDarIds := ["abc123"],
        userUploadRc := 0, provVetRc := 9, userVetRc := 0,
        configFile := none, yamlVersion := none, writeOk := true }).1 = 0 ∧
    (vet_dar
      { darExists := true, provUploadRc := 0, provDarIds := ["abc123"],
        userUploadRc := 0, provVetRc := 9, userVetRc := 0,
        configFile := none, yamlVersion := none, writeOk := true } "abc123").2
      = [(3902, false), (2902, true)] := by
  have h := c3_activation_failure_nonfatal "1.0.0"
    { darExists := true, provUploadRc := 0, provDarIds := ["abc123"],
      userUploadRc := 0, provVetRc := 9, userVetRc := 0,
      configFile := none, yamlVersion := none, writeOk := true }
    "abc123" [] rfl rfl rfl (by decide) rfl rfl
  constructor
  · rw [h.1]
  · rw [h.2]
    rfl

/-- C5: a successful run writes the registry whose `currentVersion` is
the run's version, whose `currentPackageId` is the canonical id taken
from the head of the authoritative response's `darIds`, and whose
entries map that version to exactly that id — for any pre-existing
registry content, i.e. last write wins irrespective of version
ordering. -/
theorem c5_registry_last_write_wins (v : String) (env : Env)
    (d : String) (ds : List String)
    (hdar : env.darExists = true) (hprov : env.provUploadRc = 0)
    (hids : env.provDarIds = d :: ds) (hd : d ≠ "")
    (huser : env.userUploadRc = 0) (hw : env.writeOk = true) :
    (main_run [v] env).1 = 0 ∧
    env.provDarIds.head? = some d ∧
    Event.registryWrite (update_package_config env.configFile d v)
      ∈ (main_run [v] env).2 ∧
    (update_package_config env.configFile d v).currentVersion = v ∧
    (update_package_config env.configFile d v).currentPackageId = d ∧
    (v, d) ∈ (update_package_config env.configFile d v).versions ∧
    ∀ x, (v, x) ∈ (update_package_config env.configFile d v).versions → x = d := by
  have hm := main_run_success_trace v env d ds hdar hprov hids hd huser hw
  refine ⟨by rw [hm], by rw [hids]; rfl, by rw [hm]; simp, rfl, rfl,
    update_mem_self _ _ _, fun x hx => update_mem_value hx⟩

theorem c5_witness :
    ((main_run ["0.9.0"]
      { darExists := true, provUploadRc := 0, provDarIds := ["old999"],
        userUploadRc := 0, provVetRc := 0, userVetRc := 0,
        configFile := some "versions: \x7b\n    \x27" , yamlVersion := none,
        writeOk := true }).1 = 0) ∧
    ("0.9.0", "old999") ∈ (update_package_config
      (some "versions: \x7b\n    \x27") "old999" "0.9.0").versions := by
  have h := c5_registry_last_write_wins "0.9.0"
    { darExists := true, provUploadRc := 0, provDarIds := ["old999"],
      userUploadRc := 0, provVetRc := 0, userVetRc := 0,
      configFile := some "versions: \x7b\n    \x27", yamlVersion := none,
      writeOk := true }
    "old999" [] rfl rfl rfl (by decide) rfl rfl
  exact ⟨h.1, h.2.2.2.2.2.1⟩

/-- C6: the canonical package id of a run is defined exactly when the
distribution phase returns `ok`: whenever `upload_dar` returns a
canonical id, the authoritative upload succeeded and the id is the first
element of the authoritative response's `darIds`; and when the
authoritative upload succeeds but the response carries no identifier
(empty list, or a falsy empty-string first element), the run aborts with
exit code 1 (`DistributionError`) right after the authoritative call. -/
theorem c6_canonical_id_extraction (env : Env) :
    (∀ c ev, upload_dar env = (Except.ok c, ev) →
      env.provUploadRc = 0 ∧ env.provDarIds.head? = some c ∧ c ≠ "") ∧
    (env.darExists = true → env.provUploadRc = 0 →
      (env.provDarIds = [] ∨ env.provDarIds.head? = some "") →
      upload_dar env = (Except.error 1, [Event.uploadCall 3902])) := by
  rcases upload_dar_cases env with
    ⟨hde, hup⟩ | ⟨hde, hprc, hup⟩ | ⟨hde, hprc, hids, hup⟩ |
    ⟨ds, hde, hprc, hids, hup⟩ | ⟨d, ds, hde, hprc, hids, hd, hurc, hup⟩ |
    ⟨d, ds, hde, hprc, hids, hd, hurc, hup⟩
  · refine ⟨?_, ?_⟩
    · intro c ev h
      rw [hup] at h
      cases h
    · intro h
      rw [hde] at h
      cases h
  · refine ⟨?_, ?_⟩
    · intro c ev h
      rw [hup] at h
      cases h
    · intro _ h
      exact absurd h hprc
  · refine ⟨?_, fun _ _ _ => hup⟩
    intro c ev h
    rw [hup] at h
    cases h
  · refine ⟨?_, fun _ _ _ => hup⟩
    intro c ev h
    rw [hup] at h
    cases h
  · refine ⟨?_, ?_⟩
    · intro c ev h
      rw [hup] at h
      cases h
    intro _ _ hids2
    rcases hids2 with hids2 | hids2
    · rw [hids] at hids2
      cases hids2
    · rw [hids] at hids2
      simp only [List.head?_cons, Option.some.injEq] at hids2
      exact absurd hids2 hd
  · refine ⟨?_, ?_⟩
    · intro c ev h
      rw [hup] at h
      obtain ⟨h1, h2⟩ := Prod.ext_iff.mp h
      simp only [Except.ok.injEq] at h1
      subst h1
      exact ⟨hprc, by rw [hids]; rfl, hd⟩
    · intro _ _ hids2
      rcases hids2 with hids2 | hids2
      · rw [hids] at hids2
        cases hids2
      · rw [hids] at hids2
        simp only [List.head?_cons, Option.some.injEq] at hids2
        exact absurd hids2 hd

theorem c6_witness :
    ({ darExists := true, provUploadRc := 0, provDarIds := ["abc123"],
        userUploadRc := 0, provVetRc := 0, userVetRc := 0,
        configFile := none, yamlVersion := none,
        writeOk := true : Env}.provUploadRc = 0 ∧
      ["abc123"].head? = some "abc123" ∧ "abc123" ≠ "") ∧
    upload_dar
      { darExists := true, provUploadRc := 0, provDarIds := [],
        userUploadRc := 0, provVetRc := 0, userVetRc := 0,
        configFile := none, yamlVersion := none, writeOk := true }
      = (Except.error 1, [Event.uploadCall 3902]) := by
  constructor
  · exact (c6_canonical_id_extraction _).1 "abc123"
      [Event.uploadCall 3902, Event.uploadCall 2902,
        Event.vetCall 3902 "abc123", Event.vetCall 2902 "abc123"] rfl
  · exact (c6_canonical_id_extraction _).2 rfl rfl (Or.inl rfl)

/-- C4 counterexample: a run of the standalone vetting entry point
(`vet_dar.py`) with a well-formed single argument, in which the only
failure is one node's activation call, exits with status 1 — an exit
status changed by a per-node activation failure alone, contradicting the
claim that across the command surface activation failures never change
the exit status from zero. -/
theorem c4_counterexample :
    (["pkg"].length = 1) ∧
    vetDarMain ["pkg"] { provVetRc := 1, userVetRc := 0 }
      = (1, [Event.vetCall 3902 "pkg", Event.vetCall 2902 "pkg"]) := by
  constructor
  · rfl
  · rfl

/-- C4 (amended): the upload entry point (`upload_dar.py`) exits zero
iff no fatal error occurred — arguments well-formed, version resolvable,
artifact present, both uploads succeeded with a usable canonical id, and
the registry write succeeded — and its whole behaviour is unchanged by
the two activation return codes; the standalone vetting entry point
(`vet_dar.py`) additionally exits non-zero whenever either activation
call fails. -/
theorem c4_exit_codes :
    (∀ args env, (main_run args env).1 = 0 ↔
      (args.length ≤ 1 ∧ resolveVersion args env ≠ none ∧
        env.darExists = true ∧ env.provUploadRc = 0 ∧
        (∃ d ds, env.provDarIds = d :: ds ∧ d ≠ "") ∧
        env.userUploadRc = 0 ∧ env.writeOk = true)) ∧
    (∀ args env x y,
      main_run args
        { env with provVetRc := x, userVetRc := y } = main_run args env) ∧
    (∀ args venv, (vetDarMain args venv).1 = 0 ↔
      (args.length = 1 ∧ venv.provVetRc = 0 ∧ venv.userVetRc = 0)) := by
  refine ⟨main_run_exit, ?_, ?_⟩
  · intro args env x y
    rcases env with ⟨de, prc, ids, urc, pv, uv, cf, yv, wo⟩
    rfl
  · intro args venv
    rcases venv with ⟨pv, uv⟩
    match args with
    | [] =>
      constructor
      · intro h
        simp [vetDarMain] at h
      · rintro ⟨h, -, -⟩
        simp at h
    | [pkg] =>
      simp only [vetDarMain, vet_dar_on_participant, List.length_singleton]
      rw [if_neg (by decide)]
      by_cases hp : pv = 0 <;> by_cases hu : uv = 0 <;>
        simp [hp, hu]
    | p :: q :: rest =>
      constructor
      · intro h
        simp [vetDarMain] at h
      · rintro ⟨h, -, -⟩
        simp at h

/-- C7: for every existing registry content and every (version,
canonicalId) pair, `update_package_config` upserts the pair — the new
entries contain it, the version maps to no other id, every other
version's entry is exactly as in the parsed existing registry, and
re-upserting the same version on the rewritten registry again leaves
only the latest id for it. -/
theorem c7_registry_upsert (cf : Option String) (pid ver : String) :
    (ver, pid) ∈ (update_package_config cf pid ver).versions ∧
    (∀ x, (ver, x) ∈ (update_package_config cf pid ver).versions → x = pid) ∧
    (∀ v' x, v' ≠ ver →
      ((v', x) ∈ (update_package_config cf pid ver).versions ↔
        (v', x) ∈ parseVersions (configContent cf))) ∧
    (∀ pid2 x, (ver, x) ∈ (update_package_config
        (some (renderConfig (update_package_config cf pid ver)))
        pid2 ver).versions → x = pid2) := by
  refine ⟨update_mem_self cf pid ver, fun x hx => update_mem_value hx,
    fun v' x hne => update_mem_frame hne, fun pid2 x hx => update_mem_value hx⟩

theorem c7_witness :
    ("1.0.0", "abc") ∈ (update_package_config none "abc" "1.0.0").versions ∧
    (("0.9.0", "zzz") ∈ (update_package_config none "abc" "1.0.0").versions ↔
      ("0.9.0", "zzz") ∈ parseVersions (configContent none)) :=
  ⟨(c7_registry_upsert none "abc" "1.0.0").1,
   (c7_registry_upsert none "abc" "1.0.0").2.2.1 "0.9.0" "zzz" (by decide)⟩

/-- C8: serialize-then-parse round trip — parsing the registry content
written by `update_package_config` with the component's own parsing step
returns exactly its entry list, for any prior content and any version
and canonical id made of ordinary characters (nonempty, without quote,
closing brace or colon characters). -/
theorem c8_registry_roundtrip (cf : Option String) (pid ver : String)
    (hver : goodField ver) (hpid : goodField pid) :
    parseVersions (renderConfig (update_package_config cf pid ver))
      = (update_package_config cf pid ver).versions :=
  parseVersions_render hver hpid (update_good hver hpid)
    (update_keys_nodup cf pid ver)

theorem c8_witness :
    parseVersions (renderConfig (update_package_config none "abc123" "1.0.0"))
      = (update_package_config none "abc123" "1.0.0").versions :=
  c8_registry_roundtrip none "abc123" "1.0.0"
    ⟨by decide, by decide⟩ ⟨by decide, by decide⟩

/-- C9: the entry list of every registry produced by
`update_package_config` is strictly sorted by version in descending
string (lexicographic) order. -/
theorem c9_registry_sorted_desc (cf : Option String) (pid ver : String) :
    (update_package_config cf pid ver).versions.Pairwise
      (fun a b => b.1 < a.1) :=
  sortDesc_keys_strict
    (dictInsert_keys_nodup (parseChars_keys_nodup (configContent cf).data))

/-- C10: the registry-parsing step never fails — for every existing
content the rewrite succeeds and its entries are only the upserted pair
plus whatever entries the tolerant regex parse recognised, and a
registry whose entries are not in the quoted `'version': 'id'` shape
(here: double-quoted) silently parses to nothing, so the rewritten
registry drops the unrecognised prior entry instead of erroring. -/
theorem c10_parse_never_fails :
    (∀ (content : String) (pid ver : String),
      ∀ e ∈ (update_package_config (some content) pid ver).versions,
        e = (ver, pid) ∨ e ∈ parseVersions content) ∧
    parseVersions "versions: \x7b \"1.0.0\": \"abc123\" \x7d" = [] ∧
    (update_package_config (some "versions: \x7b \"1.0.0\": \"abc123\" \x7d")
        "newid" "2.0.0").versions = [("2.0.0", "newid")] := by
  have hparse :
      parseVersions "versions: \x7b \"1.0.0\": \"abc123\" \x7d" = [] := by
    show parseChars ("versions: \x7b \"1.0.0\": \"abc123\" \x7d").data = []
    unfold parseChars
    rw [show findVersionsBlock ("versions: \x7b \"1.0.0\": \"abc123\" \x7d").data
        = some (" \"1.0.0\": \"abc123\" ").data from by decide]
    dsimp only
    rw [findEntries_of_no_quote (by decide)]
    rfl
  refine ⟨?_, hparse, ?_⟩
  · intro content pid ver e he
    rcases dictInsert_mem_sub (sortDesc_mem.mp he) with heq | hmem
    · exact Or.inl heq
    · exact Or.inr hmem
  · rw [update_versions_eq]
    rw [show parseVersions (configContent
        (some "versions: \x7b \"1.0.0\": \"abc123\" \x7d"))
      = [] from hparse]
    decide

theorem c10_witness :
    ("2.0.0", "newid") = (("2.0.0" : String), ("newid" : String)) ∨
      ("2.0.0", "newid") ∈ parseVersions "versions: \x7b \"1.0.0\": \"abc123\" \x7d" :=
  c10_parse_never_fails.1 "versions: \x7b \"1.0.0\": \"abc123\" \x7d"
    "newid" "2.0.0" ("2.0.0", "newid")
    (update_mem_self (some "versions: \x7b \"1.0.0\": \"abc123\" \x7d")
      "newid" "2.0.0")
